import Mathlib

/-!
Verification development for the RepoFetch repository.

The TypeScript sources are shallowly embedded: pure functions on trees,
entries and paths become Lean functions on `List`/`String`/`Nat`; the
GitHub HTTP client becomes a deterministic oracle (`World`) plus explicit
client state; promise-based batching becomes a fold over explicit groups.
JavaScript `localeCompare` is modelled as code-point comparison (they agree
on equal strings and on plain ASCII segment names), `String.toLowerCase`
as ASCII lowering, and `Array.prototype.sort` (a stable sort driven by a
user comparator) as insertion sort with the same comparator.
-/

namespace RepoFetch

/-! ### Generic three-way comparators and their laws -/

/-- Three-way comparison out of a linear order. -/
def cmpOfLO {α : Type _} [LinearOrder α] (a b : α) : Ordering :=
  if a < b then .lt else if b < a then .gt else .eq

theorem cmpOfLO_eq_iff {α : Type _} [LinearOrder α] (a b : α) :
    cmpOfLO a b = .eq ↔ a = b := by
  unfold cmpOfLO
  split
  · rename_i h
    exact ⟨(fun hco => absurd hco (by simp)), (fun hab => absurd hab (ne_of_lt h))⟩
  · split
    · rename_i h
      exact ⟨(fun hco => absurd hco (by simp)), (fun hab => absurd hab.symm (ne_of_lt h))⟩
    · rename_i h₁ h₂
      exact ⟨(fun _ => le_antisymm (not_lt.mp h₂) (not_lt.mp h₁)), (fun _ => rfl)⟩

theorem cmpOfLO_swap {α : Type _} [LinearOrder α] (a b : α) :
    cmpOfLO b a = (cmpOfLO a b).swap := by
  unfold cmpOfLO
  rcases lt_trichotomy a b with h | h | h
  · simp [h, not_lt.mpr (le_of_lt h), Ordering.swap]
  · simp [h, lt_irrefl, Ordering.swap]
  · simp [h, not_lt.mpr (le_of_lt h), Ordering.swap]

theorem cmpOfLO_lt_trans {α : Type _} [LinearOrder α] {a b c : α}
    (h₁ : cmpOfLO a b = .lt) (h₂ : cmpOfLO b c = .lt) : cmpOfLO a c = .lt := by
  unfold cmpOfLO at *
  split at h₁ <;> rename_i hab
  · split at h₂ <;> rename_i hbc
    · simp [lt_trans hab hbc]
    · split at h₂ <;> simp_all
  · split at h₁ <;> simp_all

/-- Bundle of laws making a three-way comparator behave like a total preorder
comparison: swap-antisymmetry, transitivity of `lt`, and left-congruence of
`eq`. -/
structure CmpLaws {α : Type _} (c : α → α → Ordering) : Prop where
  swap : ∀ a b, c b a = (c a b).swap
  lt_trans : ∀ {a b d}, c a b = .lt → c b d = .lt → c a d = .lt
  eq_congL : ∀ {a b}, c a b = .eq → ∀ d, c a d = c b d

theorem CmpLaws.cmp_self {α : Type _} {c : α → α → Ordering} (hc : CmpLaws c)
    (a : α) : c a a = .eq := by
  have h := hc.swap a a
  cases hcc : c a a
  case lt => rw [hcc] at h; simp [Ordering.swap] at h
  case eq => rfl
  case gt => rw [hcc] at h; simp [Ordering.swap] at h

theorem CmpLaws.eq_congR {α : Type _} {c : α → α → Ordering} (hc : CmpLaws c)
    {a b : α} (h : c a b = .eq) (d : α) : c d a = c d b := by
  rw [hc.swap a d, hc.swap b d, hc.eq_congL h d]

theorem cmpOfLO_laws {α : Type _} [LinearOrder α] : CmpLaws (cmpOfLO (α := α)) where
  swap := cmpOfLO_swap
  lt_trans := cmpOfLO_lt_trans
  eq_congL := by
    intro a b h d
    have : a = b := (cmpOfLO_eq_iff a b).mp h
    rw [this]

/-- Lexicographic extension of a comparator to lists. -/
def lexCmp {α : Type _} (c : α → α → Ordering) : List α → List α → Ordering
  | [], [] => .eq
  | [], _ :: _ => .lt
  | _ :: _, [] => .gt
  | a :: as, b :: bs =>
    match c a b with
    | .eq => lexCmp c as bs
    | o => o

theorem lexCmp_swap {α : Type _} {c : α → α → Ordering} (hc : CmpLaws c) :
    ∀ as bs : List α, lexCmp c bs as = (lexCmp c as bs).swap
  | [], [] => rfl
  | [], _ :: _ => rfl
  | _ :: _, [] => rfl
  | a :: as, b :: bs => by
    simp only [lexCmp]
    rw [hc.swap a b]
    cases hab : c a b
    case lt => rfl
    case eq => exact lexCmp_swap hc as bs
    case gt => rfl

theorem lexCmp_lt_trans {α : Type _} {c : α → α → Ordering} (hc : CmpLaws c) :
    ∀ as bs ds : List α,
      lexCmp c as bs = .lt → lexCmp c bs ds = .lt → lexCmp c as ds = .lt
  | [], bs, ds => fun h₁ h₂ => by
    cases bs with
    | nil => exact absurd h₁ (by simp [lexCmp])
    | cons b bs =>
      cases ds with
      | nil => exact absurd h₂ (by simp [lexCmp])
      | cons d ds => simp [lexCmp]
  | a :: as, bs, ds => fun h₁ h₂ => by
    cases bs with
    | nil => exact absurd h₁ (by simp [lexCmp])
    | cons b bs =>
      cases ds with
      | nil => exact absurd h₂ (by simp [lexCmp])
      | cons d ds =>
        simp only [lexCmp] at h₁ h₂ ⊢
        cases hab : c a b <;> rw [hab] at h₁ <;> simp at h₁
        case lt =>
          cases hbd : c b d <;> rw [hbd] at h₂ <;> simp at h₂
          case lt => rw [hc.lt_trans hab hbd]
          case eq => rw [← hc.eq_congR hbd a, hab]
        case eq =>
          cases hbd : c b d <;> rw [hbd] at h₂ <;> simp at h₂
          case lt => rw [hc.eq_congL hab d, hbd]
          case eq =>
            rw [hc.eq_congL hab d, hbd]
            exact lexCmp_lt_trans hc as bs ds h₁ h₂

theorem lexCmp_eq_congL {α : Type _} {c : α → α → Ordering} (hc : CmpLaws c) :
    ∀ as bs : List α, lexCmp c as bs = .eq →
      ∀ ds : List α, lexCmp c as ds = lexCmp c bs ds
  | [], [], _, _ => rfl
  | [], _ :: _, h, _ => absurd h (by simp [lexCmp])
  | _ :: _, [], h, _ => absurd h (by simp [lexCmp])
  | a :: as, b :: bs, h, ds => by
    simp only [lexCmp] at h
    cases ds with
    | nil => rfl
    | cons d ds =>
      simp only [lexCmp]
      cases hab : c a b <;> rw [hab] at h <;> simp at h
      rw [hc.eq_congL hab d]
      cases hbd : c b d
      case lt => rfl
      case eq => exact lexCmp_eq_congL hc as bs h ds
      case gt => rfl

theorem lexCmp_laws {α : Type _} {c : α → α → Ordering} (hc : CmpLaws c) :
    CmpLaws (lexCmp c) where
  swap := lexCmp_swap hc
  lt_trans := fun {as bs ds} => lexCmp_lt_trans hc as bs ds
  eq_congL := fun {as bs} h => lexCmp_eq_congL hc as bs h

/-- Pair comparator: first component, then second. -/
def prodCmp {α β : Type _} (c₁ : α → α → Ordering) (c₂ : β → β → Ordering)
    (x y : α × β) : Ordering :=
  match c₁ x.1 y.1 with
  | .eq => c₂ x.2 y.2
  | o => o

theorem prodCmp_laws {α β : Type _} {c₁ : α → α → Ordering} {c₂ : β → β → Ordering}
    (h₁ : CmpLaws c₁) (h₂ : CmpLaws c₂) : CmpLaws (prodCmp c₁ c₂) := by
  constructor
  · intro x y
    simp only [prodCmp]
    rw [h₁.swap x.1 y.1]
    cases hab : c₁ x.1 y.1
    case lt => rfl
    case eq => exact h₂.swap x.2 y.2
    case gt => rfl
  · intro x y z hxy hyz
    simp only [prodCmp] at hxy hyz ⊢
    cases hab : c₁ x.1 y.1 <;> rw [hab] at hxy <;> simp at hxy
    case lt =>
      cases hbd : c₁ y.1 z.1 <;> rw [hbd] at hyz <;> simp at hyz
      case lt => rw [h₁.lt_trans hab hbd]
      case eq => rw [← h₁.eq_congR hbd x.1, hab]
    case eq =>
      cases hbd : c₁ y.1 z.1 <;> rw [hbd] at hyz <;> simp at hyz
      case lt => rw [h₁.eq_congL hab z.1, hbd]
      case eq =>
        rw [h₁.eq_congL hab z.1, hbd]
        exact h₂.lt_trans hxy hyz
  · intro x y h d
    simp only [prodCmp] at h ⊢
    cases hab : c₁ x.1 y.1 <;> rw [hab] at h <;> simp at h
    rw [h₁.eq_congL hab d.1]
    cases hbd : c₁ y.1 d.1
    case lt => rfl
    case eq => exact h₂.eq_congL h d.2
    case gt => rfl

/-! ### Characters, strings and paths -/

/-- Code-point comparison of characters, modelling the comparisons performed
by JavaScript string ordering on segment names. -/
def chCmp (a b : Char) : Ordering := cmpOfLO a.toNat b.toNat

theorem chCmp_laws : CmpLaws chCmp := by
  constructor
  · intro a b; exact cmpOfLO_swap a.toNat b.toNat
  · intro a b d h₁ h₂; exact cmpOfLO_lt_trans h₁ h₂
  · intro a b h d
    unfold chCmp at *
    rw [(cmpOfLO_eq_iff _ _).mp h]

/-- Code-point comparison of strings, the model of `localeCompare` in
`sortEntries` (they agree on equal strings and plain ASCII names). -/
def strCmp (a b : String) : Ordering := lexCmp chCmp a.data b.data

theorem strCmp_laws : CmpLaws strCmp := by
  have h := lexCmp_laws chCmp_laws
  constructor
  · intro a b; exact h.swap a.data b.data
  · intro a b d h₁ h₂; exact h.lt_trans h₁ h₂
  · intro a b hab d; exact h.eq_congL hab d.data

theorem strCmp_self (s : String) : strCmp s s = .eq := strCmp_laws.cmp_self s

/-- Split a list of characters at every `'/'`, the model of JavaScript
`path.split("/")` (an empty string yields one empty segment). -/
def splitChars : List Char → List Char → List String
  | [], acc => [String.mk acc.reverse]
  | c :: cs, acc =>
    if c = '/' then String.mk acc.reverse :: splitChars cs []
    else splitChars cs (c :: acc)

/-- Path segments of a string, as produced by `path.split("/")`. -/
def splitPath (s : String) : List String := splitChars s.data []

theorem splitChars_ne_nil (cs acc : List Char) : splitChars cs acc ≠ [] := by
  induction cs generalizing acc with
  | nil => simp [splitChars]
  | cons c cs ih =>
    simp only [splitChars]
    split
    · simp
    · exact ih _

theorem splitPath_ne_nil (s : String) : splitPath s ≠ [] := splitChars_ne_nil _ _

/-- Final path segment, the model of Node `path.basename` on the
slash-normalized, no-trailing-slash paths a git tree reports. -/
def basename (s : String) : String := (splitPath s).getLast (splitPath_ne_nil s)

/-- ASCII lower-casing of a character, the model of the lowering performed by
JavaScript `toLowerCase` on the ASCII file names and extensions at play. -/
def lowerChar (c : Char) : Char :=
  if 65 ≤ c.toNat ∧ c.toNat ≤ 90 then Char.ofNat (c.toNat + 32) else c

/-- ASCII lower-casing of a string. -/
def lowerStr (s : String) : String := String.mk (s.data.map lowerChar)

/-- Index (from the left) of the last occurrence of `'.'` in a character
list, if any. -/
def lastDotIdx (cs : List Char) : Option Nat :=
  match cs.reverse.findIdx? (fun c => c = '.') with
  | none => none
  | some k => some (cs.length - 1 - k)

/-- Model of Node `path.extname`: the suffix of the final path segment from
its last `'.'` (inclusive), or `""` when the segment has no dot or only a
leading dot (so `".gitignore"` has no extension while `"file."` has
extension `"."`). -/
def extname (p : String) : String :=
  let b := (basename p).data
  match lastDotIdx b with
  | none => ""
  | some i => if i = 0 then "" else String.mk (b.drop i)

/-- The `getExtension` helper of `filter.ts`: `path.extname`, lower-cased. -/
def getExtension (filePath : String) : String := lowerStr (extname filePath)

/-! ### Pattern matching (`matchesPattern` in `filter.ts`) -/

/-- Anchored glob matching of a pattern (in which `'*'` matches any character
sequence and every other character matches literally) against a string; this
is the matcher denoted by the regex `filter.ts` builds from a wildcard
pattern by escaping `'.'` and replacing `'*'` with `".*"`. -/
def globMatch : List Char → List Char → Bool
  | [], [] => true
  | [], _ :: _ => false
  | '*' :: ps, [] => globMatch ps []
  | '*' :: ps, c :: cs => globMatch ps (c :: cs) || globMatch ('*' :: ps) cs
  | _ :: _, [] => false
  | p :: ps, c :: cs => p == c && globMatch ps cs
termination_by ps s => (s.length, ps.length)

/-- Substring test, the model of JavaScript `String.prototype.includes`. -/
def strIncludes (hay pat : List Char) : Bool :=
  pat.isPrefixOf hay ||
    match hay with
    | [] => false
    | _ :: t => strIncludes t pat

/-- The `matchesPattern` helper of `filter.ts`: wildcard patterns are glob
matched against the full path and the final segment; wildcard-free patterns
are substring matched against both. -/
def matchesPattern (filePath pattern : String) : Bool :=
  if pattern.data.contains '*' then
    globMatch pattern.data filePath.data || globMatch pattern.data (basename filePath).data
  else
    strIncludes filePath.data pattern.data || strIncludes (basename filePath).data pattern.data

/-! ### Data model (`types.ts`) -/

/-- Raw tree item kind reported by the remote API (`"blob" | "tree"`). -/
inductive ItemKind
  | blob
  | tree
deriving DecidableEq

/-- A raw entry of the recursive tree listing (`TreeItem` in `types.ts`). -/
structure TreeItem where
  path : String
  mode : String
  type : ItemKind
  sha : String
  size : Option Nat
deriving DecidableEq

/-- The tree listing response (`TreeResponse` in `types.ts`). -/
structure TreeResponse where
  sha : String
  tree : List TreeItem
  truncated : Bool
deriving DecidableEq

/-- Normalized entry kind (`"file" | "directory"`). -/
inductive EntryKind
  | file
  | directory
deriving DecidableEq

/-- A normalized, user-facing entry (`FileEntry` in `types.ts`); absent
optional fields are `none`. -/
structure FileEntry where
  path : String
  type : EntryKind
  sha : String
  size : Option Nat
  extension : Option String
  content : Option String
deriving DecidableEq

/-- Replace the `content` field of an entry, the model of the spread
`\x7b ...entry, content \x7d` in `content.ts`. -/
def withContent (e : FileEntry) (c : Option String) : FileEntry :=
  ⟨e.path, e.type, e.sha, e.size, e.extension, c⟩

/-- Rate-limit snapshot (`RateLimitInfo` in `types.ts`); `reset` is the
absolute timestamp in milliseconds (`parseInt(header) * 1000`). -/
structure RateLimitInfo where
  limit : Nat
  remaining : Nat
  used : Nat
  reset : Nat
deriving DecidableEq

/-- The `"file" | "dir" | "all"` entry-type filter (`EntryType`). -/
inductive EntryTypeFilter
  | file
  | dir
  | all
deriving DecidableEq

/-- Filtering options (`FilterOptions` in `filter.ts`); `none` models an
absent (`undefined`) option. -/
structure FilterOptions where
  extensions : Option (List String)
  exclude : Option (List String)
  «include» : Option (List String)
  type : Option EntryTypeFilter
  maxFileSize : Option Nat

/-- Top-level fetch result (`RepoFetchResult` in `types.ts`). -/
structure RepoFetchResult where
  repo : String
  branch : String
  truncated : Bool
  files : List FileEntry
  rateLimit : Option RateLimitInfo
  isAuthenticated : Option Bool
deriving DecidableEq

/-- Top-level options (`RepoFetchOptions` in `types.ts`). -/
structure RepoFetchOptions where
  branch : Option String
  token : Option String
  extensions : Option (List String)
  exclude : Option (List String)
  «include» : Option (List String)
  type : Option EntryTypeFilter
  content : Option Bool
  shas : Option (List String)
  maxFileSize : Option Nat
  concurrency : Option Nat

/-! ### The Entry Filter (`filterTree` in `filter.ts`) -/

/-- True when an option holding a list is present and non-empty, the
JavaScript guard `xs && xs.length > 0`. -/
def listActive (o : Option (List String)) : Bool :=
  match o with
  | none => false
  | some l => !l.isEmpty

/-- Whether any pattern of the (possibly absent) list matches the path. -/
def matchesAny (o : Option (List String)) (path : String) : Bool :=
  (o.getD []).any (fun pattern => matchesPattern path pattern)

/-- Normalization of the `extensions` option: lower-case and ensure a
leading dot. -/
def normalizeExt (e : String) : String :=
  match e.data with
  | '.' :: _ => lowerStr e
  | _ => String.mk ('.' :: (lowerStr e).data)

/-- The size guard of `filterTree`:
`maxFileSize && item.size && item.size > maxFileSize` (recall that `0` is
falsy in JavaScript). -/
def sizeOverLimit (maxFileSize : Option Nat) (size : Option Nat) : Bool :=
  match maxFileSize, size with
  | some m, some s => m != 0 && s != 0 && decide (m < s)
  | _, _ => false

/-- The per-item decision of the `filterTree` loop: `none` when one of the
`continue` branches fires, otherwise the pushed `FileEntry`. -/
def keepItem (options : FilterOptions) (item : TreeItem) : Option FileEntry :=
  let isFile := item.type == ItemKind.blob
  let ext := getExtension item.path
  let typeFilter := options.type.getD EntryTypeFilter.all
  if typeFilter == EntryTypeFilter.file && !(item.type == ItemKind.blob) then none
  else if typeFilter == EntryTypeFilter.dir && !(item.type == ItemKind.tree) then none
  else if listActive options.«include» && !matchesAny options.«include» item.path then none
  else if listActive options.exclude && matchesAny options.exclude item.path then none
  else if isFile && listActive options.extensions
      && !((options.extensions.getD []).map normalizeExt).contains ext then none
  else if isFile && sizeOverLimit options.maxFileSize item.size then none
  else some ⟨item.path,
    if isFile then EntryKind.file else EntryKind.directory,
    item.sha,
    item.size,
    if isFile then (if ext == "" then none else some ext) else none,
    none⟩

/-- The Entry Filter (`filterTree` in `filter.ts`): the loop with `continue`
branches is the `filterMap` of the per-item decision. -/
def filterTree (items : List TreeItem) (options : FilterOptions) : List FileEntry :=
  items.filterMap (keepItem options)

/-! ### The Entry Sorter (`sortEntries` in `filter.ts`)

The comparator walks the two segment lists in lock step; at each index it
first compares the two "is last segment" flags (an entry whose path
continues at this level sorts before one whose path ends here) and only
then the segment names; if the loop ends, the difference of the segment
counts decides (it is zero there, since unequal counts are caught by the
flag comparison at the last index of the shorter path). -/

/-- The path comparator of `sortEntries`, phrased as structural recursion on
the two segment lists. -/
def cmpSegs : List String → List String → Ordering
  | [], [] => .eq
  | [], _ :: _ => .lt
  | _ :: _, [] => .gt
  | [a], [b] => strCmp a b
  | [_], _ :: _ :: _ => .gt
  | _ :: _ :: _, [_] => .lt
  | a :: as, b :: bs =>
    match strCmp a b with
    | .eq => cmpSegs as bs
    | o => o

/-- The comparator `sortEntries` passes to `Array.prototype.sort`, as a
three-way comparison. -/
def entryCmp (a b : FileEntry) : Ordering := cmpSegs (splitPath a.path) (splitPath b.path)

/-- Key translation: pair each segment with rank `1` when it is the last
segment of its path and `0` otherwise; `cmpSegs` is lexicographic comparison
of the key lists (rank first, then name). -/
def segKey : List String → List (Nat × String)
  | [] => []
  | [a] => [(1, a)]
  | a :: as => (0, a) :: segKey as

/-- The key-element comparator: rank, then segment name. -/
def rankCmp : Nat × String → Nat × String → Ordering := prodCmp cmpOfLO strCmp

theorem rankCmp_laws : CmpLaws rankCmp := prodCmp_laws cmpOfLO_laws strCmp_laws

theorem ordMatchId (o : Ordering) :
    (match o with | .eq => Ordering.eq | x => x) = o := by
  cases o <;> rfl

theorem cmpSegs_eq_lex : ∀ as bs : List String,
    cmpSegs as bs = lexCmp rankCmp (segKey as) (segKey bs)
  | [], [] => rfl
  | [], b :: bs => by cases bs <;> rfl
  | a :: as, [] => by cases as <;> rfl
  | [a], [b] => (ordMatchId (strCmp a b)).symm
  | [a], _ :: _ :: _ => rfl
  | _ :: _ :: _, [b] => rfl
  | a :: a' :: as, b :: b' :: bs => by
    show (match strCmp a b with
          | .eq => cmpSegs (a' :: as) (b' :: bs)
          | o => o) =
        (match strCmp a b with
          | .eq => lexCmp rankCmp (segKey (a' :: as)) (segKey (b' :: bs))
          | o => o)
    cases h : strCmp a b
    case lt => rfl
    case eq => exact cmpSegs_eq_lex (a' :: as) (b' :: bs)
    case gt => rfl

theorem cmpSegs_laws : CmpLaws cmpSegs := by
  have h := lexCmp_laws rankCmp_laws
  constructor
  · intro as bs
    rw [cmpSegs_eq_lex, cmpSegs_eq_lex]
    exact h.swap _ _
  · intro as bs ds h₁ h₂
    rw [cmpSegs_eq_lex] at h₁ h₂ ⊢
    exact h.lt_trans h₁ h₂
  · intro as bs hab ds
    rw [cmpSegs_eq_lex] at hab
    rw [cmpSegs_eq_lex, cmpSegs_eq_lex]
    exact h.eq_congL hab _

theorem entryCmp_laws : CmpLaws entryCmp := by
  constructor
  · intro a b; exact cmpSegs_laws.swap _ _
  · intro a b d h₁ h₂; exact cmpSegs_laws.lt_trans h₁ h₂
  · intro a b h d; exact cmpSegs_laws.eq_congL h _

/-- The non-strict order on entries induced by the comparator (`a` may stay
before `b` exactly when the comparator does not return a positive number). -/
def entryLE (a b : FileEntry) : Prop := entryCmp a b ≠ .gt

instance : DecidableRel entryLE := fun a b => by
  unfold entryLE; infer_instance

instance : IsTotal FileEntry entryLE where
  total := by
    intro a b
    unfold entryLE
    cases h : entryCmp a b
    case lt => exact Or.inl (by simp)
    case eq => exact Or.inl (by simp)
    case gt =>
      right
      rw [entryCmp_laws.swap a b, h]
      simp [Ordering.swap]

instance : IsTrans FileEntry entryLE where
  trans := by
    intro a b d h₁ h₂
    unfold entryLE at *
    cases hab : entryCmp a b
    case lt =>
      cases hbd : entryCmp b d
      case lt => rw [entryCmp_laws.lt_trans hab hbd]; simp
      case eq => rw [← entryCmp_laws.eq_congR hbd a, hab]; simp
      case gt => exact absurd hbd h₂
    case eq => rw [entryCmp_laws.eq_congL hab d]; exact h₂
    case gt => exact absurd hab h₁

/-- The Entry Sorter (`sortEntries` in `filter.ts`): `Array.prototype.sort`
(stable, comparator-driven) modelled as insertion sort with the same
comparator. -/
def sortEntries (entries : List FileEntry) : List FileEntry :=
  List.insertionSort entryLE entries

theorem sortEntries_sorted (entries : List FileEntry) :
    List.Sorted entryLE (sortEntries entries) :=
  List.sorted_insertionSort entryLE entries

theorem sortEntries_perm (entries : List FileEntry) :
    List.Perm (sortEntries entries) entries :=
  List.perm_insertionSort entryLE entries

/-- Decidable test for "the first path is a strict ancestor of the second at
a segment boundary": its segment list is a proper prefix of the other's. -/
def isStrictAncestor (p q : String) : Bool :=
  List.isPrefixOf (splitPath p) (splitPath q) &&
    decide ((splitPath p).length < (splitPath q).length)

/-- On an ancestor/descendant pair the comparator of `sortEntries` puts the
descendant first: the flag comparison at the ancestor's last segment fires
before any name comparison and returns "greater" for the ancestor. -/
theorem cmpSegs_of_prefix : ∀ as bs : List String, as ≠ [] →
    as.IsPrefix bs → as.length < bs.length → cmpSegs as bs = .gt
  | [], _, h, _, _ => absurd rfl h
  | [a], bs, _, hpre, hlen => by
    obtain ⟨t, ht⟩ := hpre
    subst ht
    cases t with
    | nil => simp at hlen
    | cons x xs => rfl
  | a :: a' :: as, bs, _, hpre, hlen => by
    obtain ⟨t, ht⟩ := hpre
    subst ht
    show (match strCmp a a with
          | .eq => cmpSegs (a' :: as) (a' :: as ++ t)
          | o => o) = .gt
    rw [strCmp_self]
    exact cmpSegs_of_prefix (a' :: as) (a' :: as ++ t) (by simp)
      ⟨t, rfl⟩ (by simpa using hlen)

/-- A directory entry and a file entry below it, as `filterTree` would
produce them. -/
def entrySrc : FileEntry := ⟨"src", EntryKind.directory, "d1", none, none, none⟩

def entrySrcIndex : FileEntry :=
  ⟨"src/index.ts", EntryKind.file, "f1", some 10, some ".ts", none⟩

/-- C1, counterexample: `sortEntries` orders the strict-ancestor entry
`"src"` AFTER its descendant `"src/index.ts"`, not before it as the claim
states: on the two-entry list the sorted output is
`["src/index.ts", "src"]`. -/
theorem c1_counterexample :
    sortEntries [entrySrc, entrySrcIndex] = [entrySrcIndex, entrySrc] ∧
      isStrictAncestor entrySrc.path entrySrcIndex.path = true := by
  constructor
  · decide
  · decide

/-- C1, amended: for every pair of entries of the sorted output where one
entry's path is a strict ancestor prefix of the other's at a segment
boundary, the shallower (exhausted-segments) entry is ordered AFTER its
deeper descendant — the comparator returns "greater" for the ancestor
because the exhausted-flag comparison fires before any name comparison. -/
theorem c1_sortEntries_ancestor_after_descendant
    (l : List FileEntry) (i j : Nat) (d : FileEntry)
    (hi : i < (sortEntries l).length) (hj : j < (sortEntries l).length)
    (h : isStrictAncestor ((sortEntries l).getD i d).path
        ((sortEntries l).getD j d).path = true) :
    j < i := by
  have hgt : entryCmp ((sortEntries l).getD i d) ((sortEntries l).getD j d) = .gt := by
    unfold isStrictAncestor at h
    rw [Bool.and_eq_true, decide_eq_true_eq] at h
    exact cmpSegs_of_prefix _ _ (splitPath_ne_nil _)
      (List.isPrefixOf_iff_prefix.mp h.1) h.2
  have hne : i ≠ j := by
    intro hij
    subst hij
    rw [entryCmp_laws.cmp_self] at hgt
    cases hgt
  rcases Nat.lt_trichotomy i j with hlt | heq | hgt'
  · exfalso
    have hsorted := sortEntries_sorted l
    have hrel := hsorted.rel_get_of_lt (a := ⟨i, hi⟩) (b := ⟨j, hj⟩) hlt
    rw [List.getD_eq_getElem _ _ hi, List.getD_eq_getElem _ _ hj] at hgt
    rw [List.get_eq_getElem, List.get_eq_getElem] at hrel
    exact hrel hgt
  · exact absurd heq hne
  · exact hgt'

/-- C1, witness for the amended theorem at the two-entry list
`["src", "src/index.ts"]`: the ancestor lands at index 1, the descendant at
index 0. -/
theorem c1_witness :
    (1 < (sortEntries [entrySrc, entrySrcIndex]).length ∧
      0 < (sortEntries [entrySrc, entrySrcIndex]).length ∧
      isStrictAncestor ((sortEntries [entrySrc, entrySrcIndex]).getD 1 entrySrc).path
        ((sortEntries [entrySrc, entrySrcIndex]).getD 0 entrySrc).path = true) ∧
      (0 : Nat) < 1 :=
  ⟨⟨by decide, by decide, by decide⟩,
    c1_sortEntries_ancestor_after_descendant [entrySrc, entrySrcIndex] 1 0 entrySrc
      (by decide) (by decide) (by decide)⟩

/-! ### Claims C8 and C9: the Entry Filter -/

/-- The spec's reading of "the path's final segment has a non-empty suffix
after its last `.`", used to state C8 (this is the spec's wording, not the
code's `extname` semantics). -/
def specHasDotSuffix (p : String) : Bool :=
  match lastDotIdx (basename p).data with
  | none => false
  | some i => decide (i + 1 < (basename p).data.length)

/-- A dotfile tree item (extensionless under Node `extname`, yet its final
segment does have a non-empty suffix after its last dot). -/
def itemGitignore : TreeItem := ⟨".gitignore", "100644", ItemKind.blob, "g1", some 5⟩

/-- Empty filter options: every field absent. -/
def noFilter : FilterOptions := ⟨none, none, none, none, none⟩

/-- The exact shape of every entry `keepItem` emits. -/
theorem keepItem_shape {options : FilterOptions} {item : TreeItem} {e : FileEntry}
    (h : keepItem options item = some e) :
    e = ⟨item.path,
      if item.type == ItemKind.blob then EntryKind.file else EntryKind.directory,
      item.sha, item.size,
      if item.type == ItemKind.blob then
        (if getExtension item.path == "" then none else some (getExtension item.path))
      else none,
      none⟩ := by
  simp only [keepItem] at h
  repeat' split at h
  all_goals try (cases h; done)
  all_goals (injection h with h2; rw [← h2]; simp [*])

/-- C8, counterexample: on the item `".gitignore"` the Entry Filter emits a
file entry with `extension = none`, although the path's final segment has
the non-empty suffix `"gitignore"` after its last `.` — so the claimed
"if and only if" fails on the code. -/
theorem c8_counterexample :
    filterTree [itemGitignore] noFilter =
      [⟨".gitignore", EntryKind.file, "g1", some 5, none, none⟩] ∧
      specHasDotSuffix ".gitignore" = true := by
  constructor
  · decide
  · decide

/-- C8, amended: for every entry produced by the Entry Filter, `extension`
is set if and only if the entry is a file and Node-`extname` of its path is
non-empty — that is, the final segment contains a `.` in a position other
than the first; when set it is the lower-cased `extname` including the
leading dot (so `".gitignore"` has no extension, `"file."` has extension
`"."`); directories never have an extension. -/
theorem c8_extension_iff_extname (items : List TreeItem) (options : FilterOptions)
    (e : FileEntry) (he : e ∈ filterTree items options) :
    e.extension =
      (if e.type == EntryKind.file && !(getExtension e.path == "") then
        some (getExtension e.path) else none) ∧
      (e.extension.isSome ↔ (e.type = EntryKind.file ∧ getExtension e.path ≠ "")) := by
  unfold filterTree at he
  rw [List.mem_filterMap] at he
  obtain ⟨item, _, hk⟩ := he
  have hshape := keepItem_shape hk
  subst hshape
  by_cases hb : item.type == ItemKind.blob
  · by_cases hext : getExtension item.path == ""
    · have heq : getExtension item.path = "" := by simpa using hext
      refine ⟨?_, ?_⟩ <;> simp [hb, heq]
    · have hne : ¬getExtension item.path = "" := by simpa using hext
      refine ⟨?_, ?_⟩ <;> simp [hb, hne]
  · refine ⟨?_, ?_⟩ <;> simp [hb]

/-- C8, witness: the amended characterization applied to the concrete
output entry for `"src/index.ts"`. -/
theorem c8_witness :
    (⟨"src/index.ts", EntryKind.file, "f1", some 10, some ".ts", none⟩ : FileEntry) ∈
        filterTree [⟨"src/index.ts", "100644", ItemKind.blob, "f1", some 10⟩] noFilter ∧
      ((⟨"src/index.ts", EntryKind.file, "f1", some 10, some ".ts", none⟩ : FileEntry).extension =
        (if (⟨"src/index.ts", EntryKind.file, "f1", some 10, some ".ts", none⟩ : FileEntry).type
              == EntryKind.file &&
            !(getExtension "src/index.ts" == "") then
          some (getExtension "src/index.ts") else none)) :=
  ⟨by decide,
    (c8_extension_iff_extname [⟨"src/index.ts", "100644", ItemKind.blob, "f1", some 10⟩]
      noFilter ⟨"src/index.ts", EntryKind.file, "f1", some 10, some ".ts", none⟩
      (by decide)).1⟩

/-- An item matching both an include pattern and an exclude pattern is
dropped by `keepItem`. -/
theorem keepItem_none_of_include_and_exclude {options : FilterOptions} {item : TreeItem}
    {exc : List String} {pe : String}
    (hexc : options.exclude = some exc) (hpe : pe ∈ exc)
    (hme : matchesPattern item.path pe = true) :
    keepItem options item = none := by
  have hD : (listActive options.exclude && matchesAny options.exclude item.path) = true := by
    rw [hexc, Bool.and_eq_true]
    constructor
    · simp [listActive, List.isEmpty_iff]
      exact List.ne_nil_of_mem hpe
    · simp only [matchesAny, Option.getD_some, List.any_eq_true]
      exact ⟨pe, hpe, hme⟩
  unfold keepItem
  simp [hD]

/-- C9: filtering applies include before exclude, and an item whose path
matches at least one include pattern AND at least one exclude pattern is
dropped from the output wherever it occurs in the input list. -/
theorem c9_include_then_exclude_drops (options : FilterOptions) (item : TreeItem)
    (inc exc : List String) (pi pe : String)
    (_hinc : options.«include» = some inc) (_hpi : pi ∈ inc)
    (_hmi : matchesPattern item.path pi = true)
    (hexc : options.exclude = some exc) (hpe : pe ∈ exc)
    (hme : matchesPattern item.path pe = true)
    (pre post : List TreeItem) :
    filterTree (pre ++ item :: post) options =
      filterTree pre options ++ filterTree post options := by
  unfold filterTree
  rw [List.filterMap_append]
  rw [List.filterMap_cons_none (keepItem_none_of_include_and_exclude hexc hpe hme)]

/-- C9, witness: a concrete item matching both an include and an exclude
pattern disappears from the output. -/
theorem c9_witness :
    ((⟨none, some ["index"], some ["src"], none, none⟩ : FilterOptions).«include» =
        some ["src"] ∧
      "src" ∈ ["src"] ∧
      matchesPattern "src/index.ts" "src" = true ∧
      (⟨none, some ["index"], some ["src"], none, none⟩ : FilterOptions).exclude =
        some ["index"] ∧
      "index" ∈ ["index"] ∧
      matchesPattern "src/index.ts" "index" = true) ∧
      filterTree ([] ++ ⟨"src/index.ts", "100644", ItemKind.blob, "f1", some 10⟩ ::
          [itemGitignore]) ⟨none, some ["index"], some ["src"], none, none⟩ =
        filterTree [] ⟨none, some ["index"], some ["src"], none, none⟩ ++
          filterTree [itemGitignore] ⟨none, some ["index"], some ["src"], none, none⟩ :=
  ⟨⟨by decide, by decide, by decide, by decide, by decide, by decide⟩,
    c9_include_then_exclude_drops ⟨none, some ["index"], some ["src"], none, none⟩
      ⟨"src/index.ts", "100644", ItemKind.blob, "f1", some 10⟩
      ["src"] ["index"] "src" "index"
      (by decide) (by decide) (by decide) (by decide) (by decide) (by decide)
      [] [itemGitignore]⟩

/-! ### The Batched Content Fetcher (`fetchContent` in `content.ts`)

Blob retrieval is abstracted as an oracle `fetch : String → Option String`
(`none` models a rejected `getBlobContent` promise, which
`Promise.allSettled` turns into a `rejected` outcome). The optional
`onProgress` callback is modelled as a state-threaded observer `obs` with
initial state `s0`; omitting the callback corresponds to a trivial
observer. `Promise.allSettled` resolves with outcomes in the order of the
batch array, which is the order the inner `for` loop walks. -/

/-- Options of `fetchContent` (`FetchContentOptions` in `content.ts`);
`none` models an absent option, `filterShas = some l` a supplied `Set`. -/
structure FetchContentOptions where
  concurrency : Option Nat
  maxFileSize : Option Nat
  filterShas : Option (List String)

/-- The size test inside the `filesToFetch` filter:
`e.size && e.size > maxFileSize` (`0` is falsy). -/
def sizeExceeds (maxFileSize : Nat) (size : Option Nat) : Bool :=
  match size with
  | none => false
  | some s => s != 0 && decide (maxFileSize < s)

/-- The `filesToFetch` predicate of `fetchContent`: files only, not over the
size bound, and (when an allow-set was supplied) with an allowed sha. -/
def qualifies (maxFileSize : Nat) (filterShas : Option (List String)) (e : FileEntry) : Bool :=
  e.type == EntryKind.file &&
    !sizeExceeds maxFileSize e.size &&
    (match filterShas with
     | none => true
     | some shas => shas.contains e.sha)

/-- The `filesToFetch` list of `fetchContent`. -/
def filesToFetch (entries : List FileEntry) (options : FetchContentOptions) : List FileEntry :=
  entries.filter (qualifies (options.maxFileSize.getD (1024 * 1024)) options.filterShas)

/-- The batching loop `for (let i = 0; i < len; i += concurrency)`, with an
explicit fuel counter bounding the number of iterations (each iteration
slices off the next `concurrency` elements); for `concurrency ≥ 1` a fuel
of `xs.length` is exactly enough, and for `concurrency = 0` the JavaScript
loop never terminates, which the fuel cut-off makes visible as groups that
fail to exhaust the list. -/
def chunksF {α : Type _} : Nat → Nat → List α → List (List α)
  | 0, _, _ => []
  | _ + 1, _, [] => []
  | fuel + 1, n, x :: xs => (x :: xs).take n :: chunksF fuel n ((x :: xs).drop n)

/-- The groups `fetchContent` processes: consecutive slices of
`filesToFetch` of length `concurrency`. -/
def contentGroups (entries : List FileEntry) (options : FetchContentOptions) :
    List (List FileEntry) :=
  chunksF (filesToFetch entries options).length (options.concurrency.getD 5)
    (filesToFetch entries options)

/-- One step of the result-collection loop: record a fulfilled fetch in the
results map, bump the completed counter, fire the observer. The state is
(results map, completed count, observer state). -/
def fetchStep {σ : Type _} (fetch : String → Option String) (obs : σ → Nat → Nat → σ)
    (total : Nat) (st : (String → Option String) × Nat × σ) (e : FileEntry) :
    (String → Option String) × Nat × σ :=
  let results := st.1
  let completed := st.2.1
  let s := st.2.2
  let results' :=
    match fetch e.sha with
    | some c => fun x => if x == e.sha then some c else results x
    | none => results
  (results', completed + 1, obs s (completed + 1) total)

/-- The Batched Content Fetcher (`fetchContent` in `content.ts`): filter the
qualifying files, process them in consecutive groups of `concurrency`
(each group's settled outcomes are folded in batch order before the next
group starts), then merge the collected contents back over the input list.
Returns the new entry list and the final observer state. -/
def fetchContent {σ : Type _} (fetch : String → Option String) (obs : σ → Nat → Nat → σ)
    (s0 : σ) (entries : List FileEntry) (options : FetchContentOptions) :
    List FileEntry × σ :=
  let toFetch := filesToFetch entries options
  if toFetch.isEmpty then (entries, s0)
  else
    let total := toFetch.length
    let groups := contentGroups entries options
    let fin := groups.foldl (fun st g => g.foldl (fetchStep fetch obs total) st)
      ((fun _ => none), 0, s0)
    let results := fin.1
    (entries.map (fun e =>
      if e.type == EntryKind.file && (results e.sha).isSome then
        withContent e (results e.sha)
      else e),
     fin.2.2)

/-- The list of `(completed, total)` progress reports a run of
`fetchContent` makes, recorded by the accumulating observer. -/
def recObs (s : List (Nat × Nat)) (c t : Nat) : List (Nat × Nat) := s ++ [(c, t)]

def progressLog (fetch : String → Option String) (entries : List FileEntry)
    (options : FetchContentOptions) : List (Nat × Nat) :=
  (fetchContent fetch recObs ([] : List (Nat × Nat)) entries options).2

/-- A default entry for positional (`getD`) indexing in statements. -/
def dummyEntry : FileEntry := ⟨"", EntryKind.file, "", none, none, none⟩

/-- Whether the results map holds a body for sha `x` after processing the
list `l`: some processed entry has this sha and its (deterministic) fetch
succeeded. -/
def wasFetched (fetch : String → Option String) (l : List FileEntry) (x : String) : Bool :=
  l.any (fun e => e.sha == x) && (fetch x).isSome

theorem chunksF_flatten {α : Type _} :
    ∀ (fuel n : Nat) (xs : List α), 1 ≤ n → xs.length ≤ fuel →
      (chunksF fuel n xs).flatten = xs
  | 0, _, [], _, _ => rfl
  | 0, _, _ :: _, _, hle => by simp at hle
  | _ + 1, _, [], _, _ => rfl
  | fuel + 1, n, x :: xs, hn, hle => by
    simp only [chunksF, List.flatten_cons]
    rw [chunksF_flatten fuel n ((x :: xs).drop n) hn
      (by simp only [List.length_drop]; omega)]
    exact List.take_append_drop n (x :: xs)

theorem chunksF_mem_length_le {α : Type _} :
    ∀ (fuel n : Nat) (xs : List α) (g : List α), g ∈ chunksF fuel n xs → g.length ≤ n
  | 0, _, _, _, h => absurd h (by simp [chunksF])
  | _ + 1, _, [], _, h => absurd h (by simp [chunksF])
  | fuel + 1, n, x :: xs, g, h => by
    simp only [chunksF, List.mem_cons] at h
    rcases h with h | h
    · subst h
      simp [List.length_take]
    · exact chunksF_mem_length_le fuel n ((x :: xs).drop n) g h

theorem chunksF_fuel_indep {α : Type _} :
    ∀ (f₁ f₂ n : Nat) (xs : List α), 1 ≤ n → xs.length ≤ f₁ → xs.length ≤ f₂ →
      chunksF f₁ n xs = chunksF f₂ n xs
  | 0, f₂, _, [], _, _, _ => by cases f₂ <;> rfl
  | 0, _, _, _ :: _, _, h₁, _ => by simp at h₁
  | _ + 1, f₂, _, [], _, _, _ => by cases f₂ <;> rfl
  | _ + 1, 0, _, _ :: _, _, _, h₂ => by simp at h₂
  | f₁ + 1, f₂ + 1, n, x :: xs, hn, h₁, h₂ => by
    simp only [chunksF]
    rw [chunksF_fuel_indep f₁ f₂ n ((x :: xs).drop n) hn
      (by simp only [List.length_drop]; omega)
      (by simp only [List.length_drop]; omega)]

theorem foldl_chunksF {α β : Type _} (f : β → α → β) :
    ∀ (fuel n : Nat) (xs : List α) (init : β), 1 ≤ n → xs.length ≤ fuel →
      (chunksF fuel n xs).foldl (fun st g => g.foldl f st) init = xs.foldl f init
  | 0, _, [], _, _, _ => rfl
  | 0, _, _ :: _, _, _, hle => by simp at hle
  | _ + 1, _, [], _, _, _ => rfl
  | fuel + 1, n, x :: xs, init, hn, hle => by
    simp only [chunksF, List.foldl_cons]
    rw [foldl_chunksF f fuel n ((x :: xs).drop n) _ hn
      (by simp only [List.length_drop]; omega)]
    rw [← List.foldl_append]
    rw [List.take_append_drop n (x :: xs)]
    rfl

theorem fetchStep_count {σ : Type _} (fetch : String → Option String)
    (obs : σ → Nat → Nat → σ) (total : Nat) :
    ∀ (l : List FileEntry) (m : String → Option String) (k : Nat) (s : σ),
      (l.foldl (fetchStep fetch obs total) (m, k, s)).2.1 = k + l.length
  | [], _, _, _ => rfl
  | e :: t, m, k, s => by
    simp only [List.foldl_cons]
    rw [show fetchStep fetch obs total (m, k, s) e =
      ((match fetch e.sha with
        | some c => fun x => if x == e.sha then some c else m x
        | none => m), k + 1, obs s (k + 1) total) from rfl]
    rw [fetchStep_count fetch obs total t _ (k + 1) _]
    simp only [List.length_cons]
    omega

theorem fetchStep_results {σ : Type _} (fetch : String → Option String)
    (obs : σ → Nat → Nat → σ) (total : Nat) :
    ∀ (l : List FileEntry) (m : String → Option String) (k : Nat) (s : σ),
      (l.foldl (fetchStep fetch obs total) (m, k, s)).1 =
        fun x => if wasFetched fetch l x then fetch x else m x
  | [], m, _, _ => by
    funext x
    simp [wasFetched]
  | e :: t, m, k, s => by
    simp only [List.foldl_cons]
    rw [show fetchStep fetch obs total (m, k, s) e =
      ((match fetch e.sha with
        | some c => fun x => if x == e.sha then some c else m x
        | none => m), k + 1, obs s (k + 1) total) from rfl]
    rw [fetchStep_results fetch obs total t _ (k + 1) _]
    funext x
    have hcons : wasFetched fetch (e :: t) x =
        ((e.sha == x) && (fetch x).isSome || wasFetched fetch t x) := by
      cases hsx : e.sha == x <;> cases hfs : (fetch x).isSome <;>
        simp [wasFetched, hsx, hfs]
    rw [hcons]
    cases hwt : wasFetched fetch t x
    · simp only [hwt, Bool.or_false, if_false, Bool.false_eq_true]
      cases hf : fetch e.sha
      · simp only []
        by_cases hx : e.sha = x
        · subst hx
          simp [hf]
        · have hx2 : ¬x = e.sha := fun h => hx h.symm
          simp [hx, hx2]
      · rename_i c
        simp only []
        by_cases hx : x = e.sha
        · subst hx
          simp [hf]
        · have hx2 : ¬e.sha = x := fun h => hx h.symm
          simp [hx, hx2]
    · simp [hwt]

theorem fetchStep_log (fetch : String → Option String) (total : Nat) :
    ∀ (l : List FileEntry) (m : String → Option String) (k : Nat) (s : List (Nat × Nat)),
      (l.foldl (fetchStep fetch recObs total) (m, k, s)).2.2 =
        s ++ (List.range l.length).map (fun i => (k + i + 1, total))
  | [], _, _, s => by simp
  | e :: t, m, k, s => by
    simp only [List.foldl_cons]
    rw [show fetchStep fetch recObs total (m, k, s) e =
      ((match fetch e.sha with
        | some c => fun x => if x == e.sha then some c else m x
        | none => m), k + 1, s ++ [(k + 1, total)]) from rfl]
    rw [fetchStep_log fetch total t _ (k + 1) _]
    rw [List.length_cons, List.range_succ_eq_map, List.map_cons, List.map_map]
    rw [List.append_assoc]
    simp only [List.singleton_append, Nat.add_zero]
    congr 1
    congr 1
    apply List.map_congr_left
    intro i _
    simp only [Function.comp_apply, Prod.mk.injEq, and_true]
    omega

/-- Full characterization of the entry list `fetchContent` returns: an entry
comes back with content attached exactly when it is a file whose sha got a
successfully fetched body; every other entry comes back unchanged. Requires
a positive concurrency bound (with concurrency `0` the JavaScript batching
loop would never terminate). -/
theorem fetchContent_entries {σ : Type _} (fetch : String → Option String)
    (obs : σ → Nat → Nat → σ) (s0 : σ) (entries : List FileEntry)
    (options : FetchContentOptions) (hn : 1 ≤ options.concurrency.getD 5) :
    (fetchContent fetch obs s0 entries options).1 =
      entries.map (fun e =>
        if e.type == EntryKind.file &&
            wasFetched fetch (filesToFetch entries options) e.sha then
          withContent e (fetch e.sha)
        else e) := by
  unfold fetchContent
  by_cases hemp : (filesToFetch entries options).isEmpty
  · have hnil : filesToFetch entries options = [] := List.isEmpty_iff.mp hemp
    simp [hemp, hnil, wasFetched]
  · simp only [hemp, if_false, Bool.false_eq_true]
    simp only [contentGroups]
    rw [foldl_chunksF (fetchStep fetch obs (filesToFetch entries options).length)
      (filesToFetch entries options).length (options.concurrency.getD 5)
      (filesToFetch entries options) _ hn (le_refl _)]
    rw [fetchStep_results fetch obs (filesToFetch entries options).length
      (filesToFetch entries options) (fun _ => none) 0 s0]
    apply List.map_congr_left
    intro e _
    cases hw : wasFetched fetch (filesToFetch entries options) e.sha
    · simp [hw]
    · have hsome : (fetch e.sha).isSome = true := by
        simp only [wasFetched, Bool.and_eq_true] at hw
        exact hw.2
      simp [hw, hsome]

/-- The progress log of a run of `fetchContent` is exactly
`(1, M), (2, M), ..., (M, M)` where `M` is the number of qualifying files. -/
theorem progressLog_spec (fetch : String → Option String) (entries : List FileEntry)
    (options : FetchContentOptions) (hn : 1 ≤ options.concurrency.getD 5) :
    progressLog fetch entries options =
      (List.range (filesToFetch entries options).length).map
        (fun i => (i + 1, (filesToFetch entries options).length)) := by
  unfold progressLog fetchContent
  by_cases hemp : (filesToFetch entries options).isEmpty
  · have hnil : filesToFetch entries options = [] := List.isEmpty_iff.mp hemp
    simp [hemp, hnil]
  · simp only [hemp, if_false, Bool.false_eq_true]
    simp only [contentGroups]
    rw [foldl_chunksF (fetchStep fetch recObs (filesToFetch entries options).length)
      (filesToFetch entries options).length (options.concurrency.getD 5)
      (filesToFetch entries options) _ hn (le_refl _)]
    rw [fetchStep_log fetch (filesToFetch entries options).length
      (filesToFetch entries options) (fun _ => none) 0 []]
    simp only [List.nil_append, Nat.zero_add]

/-- Reading an indexed element through a `map`, with an arbitrary default on
either side. -/
theorem getD_map_of_lt {α β : Type _} (f : α → β) (l : List α) (i : Nat)
    (hi : i < l.length) (d : α) (d' : β) :
    (l.map f).getD i d' = f (l.getD i d) := by
  rw [List.getD_eq_getElem _ _ (by simpa using hi), List.getD_eq_getElem _ _ hi,
    List.getElem_map]

/-- A blob oracle in which exactly the object id `X` fails and every other
fetch succeeds (with body `g s`). -/
def failFetch (g : String → String) (X : String) : String → Option String :=
  fun s => if s == X then none else some (g s)

/-- Small demo files with distinct object ids. -/
def fileA : FileEntry := ⟨"a.txt", EntryKind.file, "shaA", some 1, some ".txt", none⟩

def fileB : FileEntry := ⟨"b.txt", EntryKind.file, "shaB", some 2, some ".txt", none⟩

def fileC : FileEntry := ⟨"c.txt", EntryKind.file, "shaC", some 3, some ".txt", none⟩

/-- Demo fetch options: concurrency 2, size bound 10, no allow-set. -/
def demoFetchOpts : FetchContentOptions := ⟨some 2, some 10, none⟩

/-- C3: for every entry list and every concurrency limit `N ≥ 1`,
`fetchContent` partitions the qualifying entries into consecutive groups of
size at most `N` preserving the original order (their concatenation is the
qualifying list in order); the groups are a deterministic function of the
input and `N` (the fuel cut-off is irrelevant once it covers the list, so
the batching loop terminates after at most one iteration per qualifying
entry), and `fetchContent` folds over these groups one after another. -/
theorem c3_batching (entries : List FileEntry) (options : FetchContentOptions)
    (hn : 1 ≤ options.concurrency.getD 5) :
    (contentGroups entries options).flatten = filesToFetch entries options ∧
      (∀ g ∈ contentGroups entries options, g.length ≤ options.concurrency.getD 5) ∧
      (∀ fuel, (filesToFetch entries options).length ≤ fuel →
        chunksF fuel (options.concurrency.getD 5) (filesToFetch entries options) =
          contentGroups entries options) := by
  refine ⟨chunksF_flatten _ _ _ hn (le_refl _), ?_, ?_⟩
  · intro g hg
    exact chunksF_mem_length_le _ _ _ g hg
  · intro fuel hf
    exact chunksF_fuel_indep fuel _ _ _ hn hf (le_refl _)

/-- C3, witness: three qualifying files at concurrency 2 regroup to the
original order. -/
theorem c3_witness :
    (1 ≤ demoFetchOpts.concurrency.getD 5) ∧
      (contentGroups [fileA, fileB, fileC] demoFetchOpts).flatten =
        filesToFetch [fileA, fileB, fileC] demoFetchOpts :=
  ⟨by decide, (c3_batching [fileA, fileB, fileC] demoFetchOpts (by decide)).1⟩

/-- C4: when the blob fetch for exactly one object id `X` fails and all
others succeed, `fetchContent` still returns normally with a list of the
input's length; the entry with object id `X` comes back unchanged (no
content), and every qualifying entry with a different object id carries
content. -/
theorem c4_partial_failure {σ : Type _} (g : String → String) (X : String)
    (obs : σ → Nat → Nat → σ) (s0 : σ) (entries : List FileEntry)
    (options : FetchContentOptions) (hn : 1 ≤ options.concurrency.getD 5) :
    (fetchContent (failFetch g X) obs s0 entries options).1.length = entries.length ∧
      ∀ i, i < entries.length →
        ((entries.getD i dummyEntry).sha = X →
          (fetchContent (failFetch g X) obs s0 entries options).1.getD i dummyEntry =
            entries.getD i dummyEntry) ∧
        (qualifies (options.maxFileSize.getD (1024 * 1024)) options.filterShas
            (entries.getD i dummyEntry) = true →
          (entries.getD i dummyEntry).sha ≠ X →
          ((fetchContent (failFetch g X) obs s0 entries options).1.getD i
            dummyEntry).content.isSome = true) := by
  have hfe := fetchContent_entries (failFetch g X) obs s0 entries options hn
  constructor
  · rw [hfe, List.length_map]
  · intro i hi
    constructor
    · intro hsha
      rw [hfe, getD_map_of_lt _ _ _ hi dummyEntry]
      have hwf : wasFetched (failFetch g X)
          (filesToFetch entries options) (entries.getD i dummyEntry).sha = false := by
        unfold wasFetched
        rw [hsha]
        simp [failFetch]
      rw [hwf]
      simp
    · intro hq hsha
      rw [hfe, getD_map_of_lt _ _ _ hi dummyEntry]
      have hmem : entries.getD i dummyEntry ∈ entries := by
        rw [List.getD_eq_getElem _ _ hi]
        exact List.getElem_mem hi
      have htf : entries.getD i dummyEntry ∈ filesToFetch entries options :=
        List.mem_filter.mpr ⟨hmem, hq⟩
      have hsucc : (failFetch g X (entries.getD i dummyEntry).sha).isSome = true := by
        unfold failFetch
        have hbeq : ((entries.getD i dummyEntry).sha == X) = false :=
          beq_eq_false_iff_ne.mpr hsha
        rw [hbeq]
        rfl
      have hwf : wasFetched (failFetch g X)
          (filesToFetch entries options) (entries.getD i dummyEntry).sha = true := by
        unfold wasFetched
        rw [Bool.and_eq_true, List.any_eq_true]
        exact ⟨⟨entries.getD i dummyEntry, htf, by simp⟩, hsucc⟩
      have hfile : ((entries.getD i dummyEntry).type == EntryKind.file) = true := by
        unfold qualifies at hq
        rw [Bool.and_eq_true, Bool.and_eq_true] at hq
        exact hq.1.1
      rw [hwf, hfile]
      simp only [Bool.and_self, if_true]
      unfold withContent
      simpa using hsucc

/-- C4, witness: fetch for `"shaB"` fails, the other two succeed; output
length is preserved. -/
theorem c4_witness :
    (1 ≤ demoFetchOpts.concurrency.getD 5) ∧
      (fetchContent (failFetch (fun _ => "body") "shaB") (fun s _ _ => s) ()
        [fileA, fileB, fileC] demoFetchOpts).1.length = 3 :=
  ⟨by decide,
    (c4_partial_failure (fun _ => "body") "shaB" (fun s _ _ => s) ()
        [fileA, fileB, fileC] demoFetchOpts (by decide)).1.trans (by decide)⟩

/-- Two file entries that share an object id while only the first one
qualifies under the size bound. -/
def eSmallDup : FileEntry := ⟨"a.txt", EntryKind.file, "S", some 1, some ".txt", none⟩

def eBigDup : FileEntry := ⟨"b.txt", EntryKind.file, "S", some 100, some ".txt", none⟩

/-- C5, counterexample: the oversized (hence non-qualifying) entry
`eBigDup` shares its object id with the qualifying `eSmallDup`; after the
fetch succeeds, the merge step attaches content to BOTH entries, so a
non-qualifying entry is not returned unchanged. -/
theorem c5_counterexample :
    qualifies 10 none eBigDup = false ∧
      (fetchContent (fun _ => some "body") (fun s _ _ => s) () [eSmallDup, eBigDup]
          ⟨some 1, some 10, none⟩).1 =
        [withContent eSmallDup (some "body"), withContent eBigDup (some "body")] := by
  exact ⟨by decide, by decide⟩

/-- C5, amended: `fetchContent` returns a list of the same length and order
in which an entry carries newly attached content exactly when it is a file
whose object id was successfully fetched for some qualifying entry; every
other entry is returned unchanged. (In particular non-file entries are
always unchanged, and when object ids are distinct, exactly the
qualifying-and-successful entries change.) -/
theorem c5_frame {σ : Type _} (fetch : String → Option String)
    (obs : σ → Nat → Nat → σ) (s0 : σ) (entries : List FileEntry)
    (options : FetchContentOptions) (hn : 1 ≤ options.concurrency.getD 5) :
    (fetchContent fetch obs s0 entries options).1.length = entries.length ∧
      ∀ i, i < entries.length →
        (fetchContent fetch obs s0 entries options).1.getD i dummyEntry =
          (if (entries.getD i dummyEntry).type == EntryKind.file &&
              wasFetched fetch (filesToFetch entries options)
                (entries.getD i dummyEntry).sha then
            withContent (entries.getD i dummyEntry)
              (fetch (entries.getD i dummyEntry).sha)
          else entries.getD i dummyEntry) := by
  have hfe := fetchContent_entries fetch obs s0 entries options hn
  constructor
  · rw [hfe, List.length_map]
  · intro i hi
    rw [hfe, getD_map_of_lt _ _ _ hi dummyEntry]

/-- C5, witness: the frame characterization on three distinct-sha files. -/
theorem c5_witness :
    (1 ≤ demoFetchOpts.concurrency.getD 5) ∧
      (fetchContent (fun _ => some "body") (fun s _ _ => s) ()
        [fileA, fileB, fileC] demoFetchOpts).1.length = 3 :=
  ⟨by decide,
    (c5_frame (fun _ => some "body") (fun s _ _ => s) () [fileA, fileB, fileC]
        demoFetchOpts (by decide)).1.trans (by decide)⟩

/-- C6: with `M` qualifying files the progress observer is invoked exactly
`M` times, with the strictly increasing completed counts `1, ..., M` and the
fixed total `M`; and the returned entry list does not depend on the observer
or its initial state. -/
theorem c6_progress (fetch : String → Option String) (entries : List FileEntry)
    (options : FetchContentOptions) (hn : 1 ≤ options.concurrency.getD 5) :
    (progressLog fetch entries options).length = (filesToFetch entries options).length ∧
      progressLog fetch entries options =
        (List.range (filesToFetch entries options).length).map
          (fun i => (i + 1, (filesToFetch entries options).length)) ∧
      List.Chain' (fun p q : Nat × Nat => p.1 < q.1) (progressLog fetch entries options) ∧
      (∀ p ∈ progressLog fetch entries options,
        p.2 = (filesToFetch entries options).length) ∧
      (∀ {σ₁ σ₂ : Type _} (obs₁ : σ₁ → Nat → Nat → σ₁) (s₁ : σ₁)
          (obs₂ : σ₂ → Nat → Nat → σ₂) (s₂ : σ₂),
        (fetchContent fetch obs₁ s₁ entries options).1 =
          (fetchContent fetch obs₂ s₂ entries options).1) := by
  have hspec := progressLog_spec fetch entries options hn
  refine ⟨?_, hspec, ?_, ?_, ?_⟩
  · rw [hspec, List.length_map, List.length_range]
  · rw [hspec]
    apply List.Pairwise.chain'
    rw [List.pairwise_map]
    exact (List.pairwise_lt_range _).imp (fun hab => Nat.succ_lt_succ hab)
  · rw [hspec]
    intro p hp
    rw [List.mem_map] at hp
    obtain ⟨i, _, hip⟩ := hp
    rw [← hip]
  · intro σ₁ σ₂ obs₁ s₁ obs₂ s₂
    rw [fetchContent_entries fetch obs₁ s₁ entries options hn,
      fetchContent_entries fetch obs₂ s₂ entries options hn]

/-- C6, witness: two qualifying files at concurrency 1 report exactly
`(1, 2)` then `(2, 2)`. -/
theorem c6_witness :
    (1 ≤ ((⟨some 1, some 10, none⟩ : FetchContentOptions).concurrency.getD 5)) ∧
      progressLog (fun _ => some "x") [fileA, fileB] ⟨some 1, some 10, none⟩ =
        [(1, 2), (2, 2)] :=
  ⟨by decide,
    ((c6_progress.{0, 0} (fun _ => some "x") [fileA, fileB] ⟨some 1, some 10, none⟩
        (by decide)).2.1).trans (by decide)⟩

/-! ### The Remote Tree Client (`GitHubClient` in `github.ts`)

HTTP is modelled by a deterministic per-repository oracle `World`: each
conceptual endpoint maps its argument to a response consisting of status
metadata (plus the rate-limit headers, bundled as `Option RateLimitInfo` —
`some` exactly when all four headers are present) and a body. Bodies are
pre-decoded: the commit endpoint's body is the commit's tree sha, the blob
endpoint's body is the base64-decoded text. Client state is the mutable
part of a `GitHubClient` instance: the optional token and the last
rate-limit snapshot. -/

/-- Status metadata of one HTTP response: `ok` is `res.ok`
(status in 200..299), `status` is `res.status`, `headers` is the bundle of
the four `X-RateLimit` headers when all are present. -/
structure RespMeta where
  ok : Bool
  status : Nat
  headers : Option RateLimitInfo

/-- Deterministic oracle for the four endpoints the client consumes. -/
structure World where
  repoMeta : RespMeta × String
  commit : String → RespMeta × String
  treeReq : String → RespMeta × TreeResponse
  blob : String → RespMeta × String

/-- Mutable state of a `GitHubClient`: the constructor-supplied token and
the `_rateLimit` field. -/
structure ClientState where
  token : Option String
  rateLimit : Option RateLimitInfo

/-- `updateRateLimit`: overwrite the snapshot when the response carries all
four rate-limit headers, otherwise leave it untouched. -/
def updRL (st : ClientState) (m : RespMeta) : ClientState :=
  match m.headers with
  | some h => ⟨st.token, some h⟩
  | none => st

/-- The `isAuthenticated` getter. -/
def clientIsAuthenticated (st : ClientState) : Bool := st.token.isSome

/-- The errors `github.ts` throws, keyed by throw site. -/
inductive GhError
  | repoNotFound
  | rateLimited
  | apiError (status : Nat)
  | commitFailed (status : Nat)
  | treeFailed (status : Nat)
  | blobFailed (status : Nat)
deriving DecidableEq

/-- `getDefaultBranch`: query repository metadata; 404 is "not found",
403 is "rate limit exceeded", any other failure a generic API error. -/
def getDefaultBranch (w : World) (st : ClientState) :
    ClientState × Except GhError String :=
  let m := w.repoMeta.1
  let st' := updRL st m
  if m.ok then (st', Except.ok w.repoMeta.2)
  else if m.status == 404 then (st', Except.error GhError.repoNotFound)
  else if m.status == 403 then (st', Except.error GhError.rateLimited)
  else (st', Except.error (GhError.apiError m.status))

/-- The tail of `getTree` after branch resolution: check the commit
response (403 maps to the rate-limit error, any other failure to
"Failed to get commit"), then fetch the recursive tree for the commit's
tree sha and pair it with the branch that was used. -/
def afterCommit (w : World) (st : ClientState) (branch : String)
    (r : RespMeta × String) : ClientState × Except GhError (TreeResponse × String) :=
  let m := r.1
  if !m.ok then
    (st, Except.error (if m.status == 403 then GhError.rateLimited
      else GhError.commitFailed m.status))
  else
    let tr := w.treeReq r.2
    let st' := updRL st tr.1
    if !tr.1.ok then (st', Except.error (GhError.treeFailed tr.1.status))
    else (st', Except.ok (tr.2, branch))

/-- `getTree`: look the requested branch up; on a 404 or 422 resolve the
default branch and retry exactly once with it; then proceed to the tree
fetch. The branch returned on success is the one the commit lookup finally
used. -/
def getTree (w : World) (st : ClientState) (branch : String) :
    ClientState × Except GhError (TreeResponse × String) :=
  let r := w.commit branch
  let st₁ := updRL st r.1
  if !r.1.ok && (r.1.status == 404 || r.1.status == 422) then
    match getDefaultBranch w st₁ with
    | (st₂, Except.error e) => (st₂, Except.error e)
    | (st₂, Except.ok db) =>
      let r' := w.commit db
      let st₃ := updRL st₂ r'.1
      afterCommit w st₃ db r'
  else
    afterCommit w st₁ branch r

/-- `getBlobContent` as a plain oracle for the Batched Content Fetcher:
the decoded body on success, `none` on any failure (the thrown error is
swallowed by `Promise.allSettled` inside `fetchContent`). The rate-limit
header update of blob responses is omitted here because `repofetch` never
reads the client state after content fetching (that omission is exactly
what claim C2 is about). -/
def blobFetch (w : World) : String → Option String :=
  fun sha => if (w.blob sha).1.ok then some (w.blob sha).2 else none

/-! ### The Result Assembler (`repofetch` in `core.ts`) -/

/-- The top-level operation `repofetch`: resolve the tree, filter with the
size bound only when content fetching was requested, sort, optionally fetch
content, and package the result. The returned record carries only
`repo`/`branch`/`truncated`/`files` — the object literal in the source sets
neither `rateLimit` nor `isAuthenticated`, so both come back absent. -/
def repofetch (w : World) (repo : String) (options : RepoFetchOptions) :
    Except GhError RepoFetchResult :=
  let branch := options.branch.getD "main"
  let content := options.content.getD false
  let maxFileSize := options.maxFileSize.getD (1024 * 1024)
  let concurrency := options.concurrency.getD 5
  let client := (⟨options.token, none⟩ : ClientState)
  match getTree w client branch with
  | (_, Except.error e) => Except.error e
  | (_, Except.ok (tree, actualBranch)) =>
    let entries := filterTree tree.tree
      ⟨options.extensions, options.exclude, options.«include», options.type,
        if content then some maxFileSize else none⟩
    let entries := sortEntries entries
    let entries :=
      if content || (match options.shas with
                     | some l => !l.isEmpty
                     | none => false) then
        (fetchContent (blobFetch w) (fun s _ _ => s) ()
          entries ⟨some concurrency, some maxFileSize, options.shas⟩).1
      else entries
    Except.ok ⟨repo, actualBranch, tree.truncated, entries, none, none⟩

/-! ### Claims C7, C2 and C10 -/

/-- A demo rate-limit snapshot. -/
def demoRL : RateLimitInfo := ⟨60, 59, 1, 1700000000000⟩

/-- A tree item for the demo repository. -/
def readmeItem : TreeItem := ⟨"README.md", "100644", ItemKind.blob, "r1", some 10⟩

/-- A world in which only branch `"main"` resolves; every other commit
lookup answers 404. -/
def fallbackWorld : World :=
  ⟨(⟨true, 200, some demoRL⟩, "main"),
    fun b => if b == "main" then (⟨true, 200, some demoRL⟩, "t1")
      else (⟨false, 404, some demoRL⟩, ""),
    fun _ => (⟨true, 200, some demoRL⟩, ⟨"t1", [readmeItem], false⟩),
    fun _ => (⟨true, 200, none⟩, "hello")⟩

/-- C7: when the initial commit lookup fails with 404 or 422 and the
default branch resolves to `db`, `getTree` behaves exactly like a single
commit attempt with `db` (conjunct one — so there is no second fallback,
whatever the retry's outcome); on success the resolved branch is `db`
(conjunct two); and a failing fallback attempt surfaces as an error — the
rate-limit error on 403, otherwise the commit failure (conjunct three). -/
theorem c7_branch_fallback (w : World) (st : ClientState) (branch : String)
    (hfail : (w.commit branch).1.ok = false)
    (hstatus : (w.commit branch).1.status = 404 ∨ (w.commit branch).1.status = 422)
    (db : String) (st₂ : ClientState)
    (hdb : getDefaultBranch w (updRL st (w.commit branch).1) =
      (st₂, Except.ok db)) :
    getTree w st branch =
        afterCommit w (updRL st₂ (w.commit db).1) db (w.commit db) ∧
      (∀ tr st', getTree w st branch = (st', Except.ok tr) → tr.2 = db) ∧
      ((w.commit db).1.ok = false →
        (getTree w st branch).2 = Except.error
          (if (w.commit db).1.status == 403 then GhError.rateLimited
            else GhError.commitFailed (w.commit db).1.status)) := by
  have hcond : (!(w.commit branch).1.ok &&
      ((w.commit branch).1.status == 404 || (w.commit branch).1.status == 422)) = true := by
    rw [hfail]
    rcases hstatus with h | h <;> simp [h]
  have h1 : getTree w st branch =
      afterCommit w (updRL st₂ (w.commit db).1) db (w.commit db) := by
    simp only [getTree]
    rw [hcond]
    simp only [if_true]
    rw [hdb]
  refine ⟨h1, ?_, ?_⟩
  · intro tr st' h
    rw [h1] at h
    simp only [afterCommit] at h
    split at h
    · simp at h
    · split at h
      · simp at h
      · simp only [Prod.mk.injEq] at h
        obtain ⟨-, h2⟩ := h
        injection h2 with h3
        rw [← h3]
  · intro hfb
    rw [h1]
    simp only [afterCommit]
    rw [hfb]
    simp

/-- C7, witness: requesting the missing branch `"doesnotexist"` on the
demo world falls back to `"main"` and proceeds as a single attempt with
it. -/
theorem c7_witness :
    ((fallbackWorld.commit "doesnotexist").1.ok = false ∧
      ((fallbackWorld.commit "doesnotexist").1.status = 404 ∨
        (fallbackWorld.commit "doesnotexist").1.status = 422) ∧
      getDefaultBranch fallbackWorld
          (updRL ⟨none, none⟩ (fallbackWorld.commit "doesnotexist").1) =
        (⟨none, some demoRL⟩, Except.ok "main")) ∧
      getTree fallbackWorld ⟨none, none⟩ "doesnotexist" =
        afterCommit fallbackWorld
          (updRL ⟨none, some demoRL⟩ (fallbackWorld.commit "main").1) "main"
          (fallbackWorld.commit "main") :=
  ⟨⟨rfl, Or.inl rfl, rfl⟩,
    (c7_branch_fallback fallbackWorld ⟨none, none⟩ "doesnotexist" rfl (Or.inl rfl)
        "main" ⟨none, some demoRL⟩ rfl).1⟩

/-- The file list a successful `repofetch` call packages, as a standalone
function of the world, the options and the fetched tree. -/
def repofetchFiles (w : World) (options : RepoFetchOptions)
    (tree : TreeResponse) : List FileEntry :=
  let content := options.content.getD false
  let maxFileSize := options.maxFileSize.getD (1024 * 1024)
  let entries := sortEntries (filterTree tree.tree
    ⟨options.extensions, options.exclude, options.«include», options.type,
      if content then some maxFileSize else none⟩)
  if content || (match options.shas with
                 | some l => !l.isEmpty
                 | none => false) then
    (fetchContent (blobFetch w) (fun s _ _ => s) () entries
      ⟨some (options.concurrency.getD 5), some maxFileSize, options.shas⟩).1
  else entries

/-- On a successful tree fetch, `repofetch` returns exactly the record the
source's object literal builds: `repo`, resolved branch, truncation flag and
the file list — and nothing else. -/
theorem repofetch_ok_shape (w : World) (repo : String) (options : RepoFetchOptions)
    (tree : TreeResponse) (ab : String) (st1 : ClientState)
    (hg : getTree w ⟨options.token, none⟩ (options.branch.getD "main") =
      (st1, Except.ok (tree, ab))) :
    repofetch w repo options = Except.ok
      ⟨repo, ab, tree.truncated, repofetchFiles w options tree, none, none⟩ := by
  simp only [repofetch]
  rw [hg]
  rfl

/-- C2: the result object `repofetch` builds carries neither the rate-limit
snapshot nor the authentication flag — the object literal in the source
sets only `repo`, `branch`, `truncated` and `files`, so every successful
call returns `rateLimit = none` and `isAuthenticated = none` no matter what
the Remote Tree Client recorded. This contradicts the claim (and the
`RepoFetchResult` fields plus the CLI's rate-limit display that consume
them). -/
theorem c2_result_lacks_rate_limit (w : World) (repo : String)
    (options : RepoFetchOptions) (res : RepoFetchResult)
    (h : repofetch w repo options = Except.ok res) :
    res.rateLimit = none ∧ res.isAuthenticated = none := by
  rcases hg : getTree w ⟨options.token, none⟩ (options.branch.getD "main") with ⟨st1, r⟩
  rcases r with e | p
  · have herr : repofetch w repo options = Except.error e := by
      simp only [repofetch]
      rw [hg]
    rw [herr] at h
    cases h
  · rcases p with ⟨tree, ab⟩
    rw [repofetch_ok_shape w repo options tree ab st1 hg] at h
    injection h with h2
    rw [← h2]
    exact ⟨rfl, rfl⟩

/-- Wholly-absent top-level options. -/
def defaultRepoOpts : RepoFetchOptions :=
  ⟨none, none, none, none, none, none, none, none, none, none⟩

/-- A world whose every response succeeds and carries rate-limit headers. -/
def demoWorld : World :=
  ⟨(⟨true, 200, some demoRL⟩, "main"),
    fun _ => (⟨true, 200, some demoRL⟩, "t1"),
    fun _ => (⟨true, 200, some demoRL⟩, ⟨"t1", [readmeItem], false⟩),
    fun _ => (⟨true, 200, none⟩, "hello")⟩

/-- The result the demo fetch produces. -/
def demoResult : RepoFetchResult :=
  ⟨"octo/demo", "main", false,
    [⟨"README.md", EntryKind.file, "r1", some 10, some ".md", none⟩],
    none, none⟩

/-- C2, witness: on the demo world — whose every response carries
rate-limit headers, so the client's snapshot is populated — the returned
result still has both fields absent. -/
theorem c2_witness :
    repofetch demoWorld "octo/demo" defaultRepoOpts = Except.ok demoResult ∧
      (demoResult.rateLimit = none ∧ demoResult.isAuthenticated = none) :=
  ⟨rfl, c2_result_lacks_rate_limit demoWorld "octo/demo" defaultRepoOpts demoResult rfl⟩

/-- C10: when the content option is off and no sha allow-set triggers a
content fetch, `repofetch` passes no size bound to the Entry Filter: any
tree item that passes the kind/include/exclude/extension filters — in
particular one whose size exceeds `maxFileSize` — appears in the returned
file list with its original size. -/
theorem c10_no_size_filter_without_content (w : World) (repo : String)
    (options : RepoFetchOptions)
    (hcontent : options.content.getD false = false)
    (hshas : (match options.shas with
              | some l => !l.isEmpty
              | none => false) = false)
    (tree : TreeResponse) (actualBranch : String) (st' : ClientState)
    (hgt : getTree w ⟨options.token, none⟩ (options.branch.getD "main") =
      (st', Except.ok (tree, actualBranch)))
    (item : TreeItem) (hitem : item ∈ tree.tree) (e : FileEntry)
    (_hsize : options.maxFileSize.getD (1024 * 1024) < item.size.getD 0)
    (hkeep : keepItem
      ⟨options.extensions, options.exclude, options.«include», options.type, none⟩
      item = some e) :
    ∃ res, repofetch w repo options = Except.ok res ∧ e ∈ res.files ∧
      e.size = item.size := by
  have hfiles : repofetchFiles w options tree =
      sortEntries (filterTree tree.tree
        ⟨options.extensions, options.exclude, options.«include», options.type,
          none⟩) := by
    simp only [repofetchFiles]
    rw [hcontent, hshas]
    simp
  refine ⟨_, repofetch_ok_shape w repo options tree actualBranch st' hgt, ?_, ?_⟩
  · show e ∈ repofetchFiles w options tree
    rw [hfiles, (sortEntries_perm _).mem_iff]
    exact List.mem_filterMap.mpr ⟨item, hitem, hkeep⟩
  · rw [keepItem_shape hkeep]

/-- A second, oversized demo item. -/
def bigItem : TreeItem :=
  ⟨"big.bin", "100644", ItemKind.blob, "b1", some (10 * 1024 * 1024)⟩

/-- A world whose tree holds one oversized file. -/
def bigWorld : World :=
  ⟨(⟨true, 200, some demoRL⟩, "main"),
    fun _ => (⟨true, 200, some demoRL⟩, "t1"),
    fun _ => (⟨true, 200, some demoRL⟩, ⟨"t1", [bigItem], false⟩),
    fun _ => (⟨true, 200, none⟩, "hello")⟩

/-- C10, witness: the 10 MB file survives filtering when no content fetch
is requested and shows up in the result with its full size. -/
theorem c10_witness :
    ((defaultRepoOpts.content.getD false = false) ∧
      ((match defaultRepoOpts.shas with
        | some l => !l.isEmpty
        | none => false) = false) ∧
      getTree bigWorld ⟨none, none⟩ "main" =
        (⟨none, some demoRL⟩, Except.ok (⟨"t1", [bigItem], false⟩, "main")) ∧
      bigItem ∈ [bigItem] ∧
      defaultRepoOpts.maxFileSize.getD (1024 * 1024) < bigItem.size.getD 0 ∧
      keepItem ⟨none, none, none, none, none⟩ bigItem =
        some ⟨"big.bin", EntryKind.file, "b1", some (10 * 1024 * 1024),
          some ".bin", none⟩) ∧
      (∃ res, repofetch bigWorld "octo/demo" defaultRepoOpts = Except.ok res ∧
        (⟨"big.bin", EntryKind.file, "b1", some (10 * 1024 * 1024),
          some ".bin", none⟩ : FileEntry) ∈ res.files ∧
        (⟨"big.bin", EntryKind.file, "b1", some (10 * 1024 * 1024),
          some ".bin", none⟩ : FileEntry).size = bigItem.size) :=
  ⟨⟨rfl, rfl, rfl, by decide, by decide, by decide⟩,
    c10_no_size_filter_without_content bigWorld "octo/demo" defaultRepoOpts rfl rfl
      ⟨"t1", [bigItem], false⟩ "main" ⟨none, some demoRL⟩ rfl bigItem (by decide)
      ⟨"big.bin", EntryKind.file, "b1", some (10 * 1024 * 1024), some ".bin", none⟩
      (by decide) (by decide)⟩

end RepoFetch
